import Mathlib

/-!
Verification development for the transcript-processing bot.

Strings are shallowly embedded as `List Char` (Python `str` values; Python
`len` is `List.length`, slicing is `take`/`drop`).  Pure functions from the
repository are translated definition-by-definition; external services
(the OpenAI chat completions reached through `_chat`, the `langdetect.detect`
call, the Telegram send primitives) are passed in as explicit function
parameters ("oracles") so the surrounding control flow stays exactly as in
the source.
-/

set_option maxRecDepth 10000

/-- Characters treated as whitespace by Python's `str.strip()` (ASCII range). -/
def isSpace (c : Char) : Bool :=
  c = ' ' || c = '\t' || c = '\n' || c = '\r' || c = '\x0b' || c = '\x0c'

/-- Python `str.strip()`: drop whitespace from both ends. -/
def pyStrip (l : List Char) : List Char :=
  ((l.dropWhile isSpace).reverse.dropWhile isSpace).reverse

/-- Does `pat` occur in `s` starting at index `i`?  (Substring test used to
model Python `str.rfind`.) -/
def matchAt (pat s : List Char) (i : Nat) : Bool :=
  pat.isPrefixOf (s.drop i)

/-- Scan indices `k, k-1, …, 0` for the highest match of `pat` in `s`. -/
def rfindFrom (pat s : List Char) : Nat → Option Nat
  | 0 => if matchAt pat s 0 then some 0 else none
  | k + 1 => if matchAt pat s (k + 1) then some (k + 1) else rfindFrom pat s k

/-- Python `s.rfind(pat, 0, e)`: highest index `i` with `i + pat.length ≤ e`
at which `pat` occurs in `s`, or `-1` if there is none. -/
def rfind (pat s : List Char) (e : Nat) : Int :=
  if pat.length ≤ e then
    match rfindFrom pat s (e - pat.length) with
    | some i => (i : Int)
    | none => -1
  else -1

/-- `transcript_handler.TailResult`. -/
structure TailResult where
  complete_text : List Char
  tail : List Char
deriving DecidableEq, Repr

/-- `transcript_handler.find_tail`: locate the break after the last sentence
terminator (`". "`, `"? "`, `"! "`) found by `rfind` bounded at
`len(text) - 1`, split there and strip both sides; with no break the whole
stripped text is complete and the tail is empty. -/
def find_tail (text : List Char) : TailResult :=
  if text = [] then ⟨[], []⟩
  else
    let sentence_break := max (rfind ['.', ' '] text (text.length - 1))
      (max (rfind ['?', ' '] text (text.length - 1)) (rfind ['!', ' '] text (text.length - 1)))
    if sentence_break = -1 then ⟨pyStrip text, []⟩
    else ⟨pyStrip (text.take (sentence_break.toNat + 1)), pyStrip (text.drop (sentence_break.toNat + 2))⟩

example : find_tail "a. b".toList = ⟨"a.".toList, "b".toList⟩ := by decide
example : find_tail "a. b. ".toList = ⟨"a.".toList, "b.".toList⟩ := by decide
example : find_tail "abc".toList = ⟨"abc".toList, []⟩ := by decide
example : find_tail " a ".toList = ⟨"a".toList, []⟩ := by decide
example : find_tail "x! y? z".toList = ⟨"x! y?".toList, "z".toList⟩ := by decide

/-! ## notion.py: block splitter -/

/-- `notion.MAX_RICH_TEXT_CHARS`. -/
def MAX_RICH_TEXT_CHARS : Nat := 2000

/-- `notion.MAX_CHILDREN_BLOCKS`. -/
def MAX_CHILDREN_BLOCKS : Nat := 99

/-- Prepend a character to the first part of a split (helper for `splitNlRuns`). -/
def consHead (c : Char) : List (List Char) → List (List Char)
  | [] => [[c]]
  | p :: ps => (c :: p) :: ps

/-- `re.split(r"\n+", text)`: split on maximal runs of newlines. -/
def splitNlRuns : List Char → List (List Char)
  | [] => [[]]
  | c :: rest =>
    if c = '\n' then
      if rest.head? = some '\n' then splitNlRuns rest
      else [] :: splitNlRuns rest
    else consHead c (splitNlRuns rest)

example : splitNlRuns "a\n\nb\nc".toList = ["a".toList, "b".toList, "c".toList] := by decide
example : splitNlRuns "\na\n".toList = [[], "a".toList, []] := by decide

/-- One iteration of the sentence-accumulation loop in
`notion.split_long_paragraphs` (the `for sentence in sentences` body), acting
on the state `(result, new_paragraph)`. -/
def sentenceStep (limit : Nat) (acc : List (List Char) × List Char) (sentence : List Char) :
    List (List Char) × List Char :=
  let s := pyStrip sentence
  if s = [] then acc
  else
    let candidate := if acc.2 ≠ [] then acc.2 ++ ('.' :: ' ' :: s) else s
    if candidate.length ≤ limit then (acc.1, candidate)
    else ((if acc.2 ≠ [] then acc.1 ++ [acc.2] else acc.1), s)

/-- The whole sentence loop: returns the flushed blocks and the final
accumulated candidate (`new_paragraph`). -/
def oversizedLoop (limit : Nat) (sentences : List (List Char)) :
    List (List Char) × List Char :=
  sentences.foldl (sentenceStep limit) ([], [])

/-- Re-segmentation of one over-long paragraph in
`notion.split_long_paragraphs`: run the sentence loop, then flush the final
candidate only when it is non-empty and under `int(limit * 0.95)` characters
(the float product is modelled as `limit * 95 / 100`, which is exact at the
default `limit = 2000` where Python computes `1900`). -/
def splitOversized (limit : Nat) (sentences : List (List Char)) : List (List Char) :=
  let lp := oversizedLoop limit sentences
  if lp.2 ≠ [] ∧ lp.2.length < limit * 95 / 100 then lp.1 ++ [lp.2] else lp.1

/-- `notion.split_long_paragraphs`: split on newline runs; stripped non-empty
paragraphs within the limit pass through, longer ones are re-segmented on
`'.'` by `splitOversized`. -/
def split_long_paragraphs (text : List Char) (limit : Nat) : List (List Char) :=
  (splitNlRuns text).foldl
    (fun result para =>
      let p := pyStrip para
      if p = [] then result
      else if p.length ≤ limit then result ++ [p]
      else result ++ splitOversized limit (p.splitOn '.'))
    []

/-- Kind of a Notion child block produced by `notion.convert_markdown_to_blocks`. -/
inductive BlockKind where
  | heading_2
  | heading_3
  | paragraph
deriving DecidableEq, Repr

/-- A Notion child block; `text` is the content string handed to
`parse_inline` (inline emphasis parsing only subdivides this string further,
it never lengthens it). -/
structure NotionBlock where
  kind : BlockKind
  text : List Char
deriving DecidableEq, Repr

/-- `notion.convert_markdown_to_blocks`: split on single newlines, strip,
skip blanks, classify by heading markers. -/
def convert_markdown_to_blocks (markdown : List Char) : List NotionBlock :=
  (markdown.splitOn '\n').foldl
    (fun blocks raw_line =>
      let line := pyStrip raw_line
      if line = [] then blocks
      else if "### ".toList.isPrefixOf line then blocks ++ [⟨.heading_3, line.drop 4⟩]
      else if "## ".toList.isPrefixOf line then blocks ++ [⟨.heading_2, line.drop 3⟩]
      else blocks ++ [⟨.paragraph, line⟩])
    []

/-- The inner append loop of `notion._markdown_to_children_blocks`: append
blocks until the running list reaches `cap`, then return it unchanged (the
early `return` in the source). -/
def appendCapped (cap : Nat) (acc : List NotionBlock) : List NotionBlock → List NotionBlock
  | [] => acc
  | b :: rest => if cap ≤ acc.length then acc else appendCapped cap (acc ++ [b]) rest

/-- `notion._markdown_to_children_blocks`: split into parts with
`split_long_paragraphs` (default limit), convert each part and append capped
at `MAX_CHILDREN_BLOCKS`. -/
def markdown_to_children_blocks (markdown : List Char) : List NotionBlock :=
  (split_long_paragraphs markdown MAX_RICH_TEXT_CHARS).foldl
    (fun acc part => appendCapped MAX_CHILDREN_BLOCKS acc (convert_markdown_to_blocks part))
    []

example : split_long_paragraphs "hi\n\nthere".toList 2000 = ["hi".toList, "there".toList] := by decide
example :
    markdown_to_children_blocks "## T\ntext".toList =
      [⟨.heading_2, "T".toList⟩, ⟨.paragraph, "text".toList⟩] := by decide


/-! ## Helper lemmas for symbolic evaluation on long inputs -/

theorem dropWhile_eq_self_of_all {p : Char → Bool} {l : List Char}
    (h : ∀ c ∈ l, p c = false) : l.dropWhile p = l := by
  cases l with
  | nil => rfl
  | cons a t => simp [List.dropWhile_cons, h a (List.mem_cons_self a t)]

theorem pyStrip_eq_self_of_all {l : List Char} (h : ∀ c ∈ l, isSpace c = false) :
    pyStrip l = l := by
  unfold pyStrip
  rw [dropWhile_eq_self_of_all h,
    dropWhile_eq_self_of_all (fun c hc => h c (List.mem_reverse.mp hc)), List.reverse_reverse]

theorem pyStrip_sandwich (a b : Char) (mid : List Char) (ha : isSpace a = false)
    (hb : isSpace b = false) : pyStrip (a :: (mid ++ [b])) = a :: (mid ++ [b]) := by
  unfold pyStrip
  have h1 : (a :: (mid ++ [b])).dropWhile isSpace = a :: (mid ++ [b]) := by
    simp [List.dropWhile_cons, ha]
  have hrev : (a :: (mid ++ [b])).reverse = b :: (mid.reverse ++ [a]) := by simp
  have h2 : (b :: (mid.reverse ++ [a])).dropWhile isSpace = b :: (mid.reverse ++ [a]) := by
    simp [List.dropWhile_cons, hb]
  rw [h1, hrev, h2, ← hrev, List.reverse_reverse]

theorem splitNlRuns_eq_single {l : List Char} (h : '\n' ∉ l) : splitNlRuns l = [l] := by
  induction l with
  | nil => rfl
  | cons c rest ih =>
    have hc : ¬(c = '\n') := by
      intro e
      exact h (by simp [e])
    have hrest : '\n' ∉ rest := fun m => h (List.mem_cons_of_mem _ m)
    simp [splitNlRuns, hc, ih hrest, consHead]

theorem splitOn_append_all_a {S : List Char} (hch : ∀ c ∈ S, c = 'a') (l : List Char) :
    (S ++ '.' :: l).splitOn '.' = S :: l.splitOn '.' := by
  rw [List.splitOn, List.splitOn, List.splitOnP_first]
  · intro x hx
    rw [hch x hx]
    decide
  · decide

theorem splitOn_nl_all_a {S : List Char} (hch : ∀ c ∈ S, c = 'a') :
    S.splitOn '\n' = [S] := by
  rw [List.splitOn, List.splitOnP_eq_single]
  intro x hx
  rw [hch x hx]
  decide

theorem convert_single_para {S : List Char} (hS : S ≠ []) (hch : ∀ c ∈ S, c = 'a') :
    convert_markdown_to_blocks S = [⟨.paragraph, S⟩] := by
  obtain ⟨a, S', rfl⟩ := List.exists_cons_of_ne_nil hS
  have ha : a = 'a' := hch a (List.mem_cons_self _ _)
  subst ha
  have hstrip : pyStrip ('a' :: S') = 'a' :: S' :=
    pyStrip_eq_self_of_all (fun c hc => by rw [hch c hc]; rfl)
  have hm3 : ("### ".toList.isPrefixOf ('a' :: S')) = false := by
    rw [show "### ".toList = '#' :: ['#', '#', ' '] from rfl]
    simp [List.isPrefixOf]
  have hm2 : ("## ".toList.isPrefixOf ('a' :: S')) = false := by
    rw [show "## ".toList = '#' :: ['#', ' '] from rfl]
    simp [List.isPrefixOf]
  unfold convert_markdown_to_blocks
  rw [splitOn_nl_all_a hch, List.foldl_cons, List.foldl_nil]
  simp only [hstrip, hm3, hm2]
  rw [if_neg (by exact List.cons_ne_nil _ _)]
  simp

theorem slp_long_sentence {S : List Char} (hch : ∀ c ∈ S, c = 'a') (hlen : 2000 < S.length) :
    split_long_paragraphs (S ++ ['.', ' ', 'b']) 2000 = [S, ['b']] := by
  have hS : S ≠ [] := by
    intro e
    rw [e] at hlen
    simp at hlen
  obtain ⟨a, S', rfl⟩ := List.exists_cons_of_ne_nil hS
  have ha : a = 'a' := hch a (List.mem_cons_self _ _)
  subst ha
  have hnl : '\n' ∉ ('a' :: S') ++ ['.', ' ', 'b'] := by
    intro m
    rcases List.mem_append.mp m with m1 | m2
    · exact absurd (hch _ m1) (by decide)
    · simp at m2
  have hstripS : pyStrip ('a' :: S') = 'a' :: S' :=
    pyStrip_eq_self_of_all (fun c hc => by rw [hch c hc]; rfl)
  have hstrip : pyStrip (('a' :: S') ++ ['.', ' ', 'b']) = ('a' :: S') ++ ['.', ' ', 'b'] := by
    have h := pyStrip_sandwich 'a' 'b' (S' ++ ['.', ' ']) rfl rfl
    simpa using h
  have hlong : ¬((('a' :: S') ++ ['.', ' ', 'b']).length ≤ 2000) := by
    simp only [List.length_append, List.length_cons] at *
    omega
  have hsplit : ((('a' :: S') ++ ['.', ' ', 'b']).splitOn '.') = [('a' :: S'), [' ', 'b']] := by
    rw [show (['.', ' ', 'b'] : List Char) = '.' :: [' ', 'b'] from rfl, splitOn_append_all_a hch]
    rfl
  have hlong1 : ¬(('a' :: S').length ≤ 2000) := by
    simp only [List.length_cons] at *
    omega
  have step1 : sentenceStep 2000 ([], []) ('a' :: S') = ([], 'a' :: S') := by
    simp [sentenceStep, hstripS, hlong1]
  have hstrip2 : pyStrip [' ', 'b'] = ['b'] := by decide
  have hlong2 : ¬((('a' :: S') ++ ('.' :: ' ' :: ['b'])).length ≤ 2000) := by
    simp only [List.length_append, List.length_cons] at *
    omega
  have step2 : sentenceStep 2000 ([], 'a' :: S') [' ', 'b'] = ([('a' :: S')], ['b']) := by
    have hlen' : 2000 < S'.length + 1 := by simpa using hlen
    simp [sentenceStep, hstrip2]
    omega
  unfold split_long_paragraphs
  rw [splitNlRuns_eq_single hnl, List.foldl_cons, List.foldl_nil]
  simp only [hstrip]
  rw [if_neg (by simp), if_neg hlong, hsplit]
  unfold splitOversized oversizedLoop
  rw [List.foldl_cons, step1, List.foldl_cons, step2, List.foldl_nil]
  simp

theorem mdcb_long_sentence {S : List Char} (hch : ∀ c ∈ S, c = 'a') (hlen : 2000 < S.length) :
    markdown_to_children_blocks (S ++ ['.', ' ', 'b']) =
      [⟨.paragraph, S⟩, ⟨.paragraph, ['b']⟩] := by
  have hS : S ≠ [] := by
    intro e
    rw [e] at hlen
    simp at hlen
  unfold markdown_to_children_blocks
  rw [show MAX_RICH_TEXT_CHARS = 2000 from rfl, slp_long_sentence hch hlen,
    List.foldl_cons, List.foldl_cons, List.foldl_nil, convert_single_para hS hch]
  rw [show convert_markdown_to_blocks ['b'] = [⟨.paragraph, ['b']⟩] from by decide]
  simp [appendCapped, MAX_CHILDREN_BLOCKS]

/-- Claim C2 (code_bug): the block-size invariant fails on the failing input
`"a" * 2001 + ". b"`.  The over-long first sentence is flushed verbatim by
`split_long_paragraphs`, so `_markdown_to_children_blocks` emits a paragraph
block of 2001 characters, exceeding `MAX_RICH_TEXT_CHARS = 2000`.  (The block
count is capped at `MAX_CHILDREN_BLOCKS`, but the per-block length bound does
not hold.) -/
theorem oversized_sentence_block_exceeds_limit :
    ∃ blk ∈ markdown_to_children_blocks (List.replicate 2001 'a' ++ ". b".toList),
      MAX_RICH_TEXT_CHARS < blk.text.length := by
  have h : markdown_to_children_blocks (List.replicate 2001 'a' ++ ". b".toList) =
      [⟨.paragraph, List.replicate 2001 'a'⟩, ⟨.paragraph, ['b']⟩] := by
    rw [show (". b".toList : List Char) = ['.', ' ', 'b'] from rfl]
    exact mdcb_long_sentence (fun c hc => List.eq_of_mem_replicate hc)
      (by rw [List.length_replicate]; decide)
  rw [h]
  refine ⟨⟨.paragraph, List.replicate 2001 'a'⟩, List.mem_cons_self _ _, ?_⟩
  show MAX_RICH_TEXT_CHARS < (List.replicate 2001 'a').length
  rw [List.length_replicate]
  decide

/-- Claim C5 (confirmed): when the sentence-accumulation loop of
`split_long_paragraphs` finishes with a non-empty trailing candidate whose
length is under ~95% of the limit (`int(limit * 0.95)`), the candidate is
flushed as the final partial block rather than dropped. -/
theorem trailing_candidate_under_threshold_flushed (limit : Nat)
    (sentences : List (List Char)) (h1 : (oversizedLoop limit sentences).2 ≠ [])
    (h2 : (oversizedLoop limit sentences).2.length < limit * 95 / 100) :
    splitOversized limit sentences =
      (oversizedLoop limit sentences).1 ++ [(oversizedLoop limit sentences).2] ∧
    (splitOversized limit sentences).getLast? = some (oversizedLoop limit sentences).2 := by
  have he : splitOversized limit sentences =
      (oversizedLoop limit sentences).1 ++ [(oversizedLoop limit sentences).2] := by
    unfold splitOversized
    rw [if_pos ⟨h1, h2⟩]
  exact ⟨he, by rw [he, List.getLast?_concat]⟩

/-- Witness for C5 at `limit = 2000`, sentences `["hi", "there"]`: the loop
ends with candidate `"hi. there"` (9 < 1900 characters), which is flushed. -/
theorem trailing_candidate_under_threshold_flushed_witness :
    splitOversized 2000 ["hi".toList, "there".toList] =
      (oversizedLoop 2000 ["hi".toList, "there".toList]).1 ++
        [(oversizedLoop 2000 ["hi".toList, "there".toList]).2] ∧
    (splitOversized 2000 ["hi".toList, "there".toList]).getLast? =
      some (oversizedLoop 2000 ["hi".toList, "there".toList]).2 :=
  trailing_candidate_under_threshold_flushed 2000 ["hi".toList, "there".toList]
    (by decide) (by decide)

/-! ## bot.py: job queue admission (`_enqueue_job`) -/

/-- A queued job: the submitter identity (`chat_id` stamped into the job dict)
plus its payload fields (type / url / title / text, abstracted as one string). -/
structure Job where
  chat_id : Int
  payload : List Char
deriving DecidableEq, Repr

/-- Outcome of `bot._enqueue_job`: either the "Queue is full right now" reply
with no enqueue, or acceptance at the zero-based position `queue.qsize()`. -/
inductive SubmitOutcome where
  | queueFull
  | accepted (position : Nat)
deriving DecidableEq, Repr

/-- `bot._enqueue_job` admission logic on the `asyncio.Queue` state (FIFO list,
bound `maxsize`): if `queue.full()` (for `maxsize > 0`: `qsize() >= maxsize`)
reply queue-full and do not enqueue; otherwise record `position = qsize()`,
`put_nowait` the job (append) and reply accepted.  There is no other admission
check in the source. -/
def enqueue_job (maxsize : Nat) (queue : List Job) (job : Job) :
    SubmitOutcome × List Job :=
  if 0 < maxsize ∧ maxsize ≤ queue.length then (.queueFull, queue)
  else (.accepted queue.length, queue ++ [job])

/-- Claim C1 (counterexample): a second submission from submitter 7, while a
job of submitter 7 is already queued, is accepted at position 1 and enqueued —
it is not rejected (the admission path has no duplicate-submitter rejection at
all). -/
theorem duplicate_submitter_not_rejected_cex :
    (enqueue_job 20 [⟨7, "youtube-a".toList⟩] ⟨7, "youtube-b".toList⟩).1 =
        SubmitOutcome.accepted 1 ∧
    (enqueue_job 20 [⟨7, "youtube-a".toList⟩] ⟨7, "youtube-b".toList⟩).2 =
      [⟨7, "youtube-a".toList⟩, ⟨7, "youtube-b".toList⟩] := by
  decide

/-- Claim C1 (corrected): admission checks only queue fullness; whenever the
queue has room, a submission is accepted and enqueued even if a job from the
same submitter is already queued. -/
theorem duplicate_submitter_accepted_when_not_full (maxsize : Nat) (queue : List Job)
    (job : Job) (hroom : queue.length < maxsize)
    (hdup : ∃ j ∈ queue, j.chat_id = job.chat_id) :
    enqueue_job maxsize queue job = (.accepted queue.length, queue ++ [job]) := by
  unfold enqueue_job
  rw [if_neg]
  intro h
  omega

/-- Witness for the corrected C1 statement at a concrete duplicate submission. -/
theorem duplicate_submitter_accepted_when_not_full_witness :
    enqueue_job 20 [⟨7, "youtube-a".toList⟩] ⟨7, "youtube-b".toList⟩ =
      (.accepted 1, [⟨7, "youtube-a".toList⟩, ⟨7, "youtube-b".toList⟩]) := by
  have h := duplicate_submitter_accepted_when_not_full 20 [⟨7, "youtube-a".toList⟩]
    ⟨7, "youtube-b".toList⟩ (by decide) ⟨⟨7, "youtube-a".toList⟩, by decide⟩
  simpa using h

/-- Claim C7 (confirmed): submitting into a full queue (positive bound,
`qsize() >= maxsize`) returns the queue-full rejection and leaves the queue
unchanged; `_enqueue_job` checks `queue.full()` before `put_nowait`, so the
caller is never blocked. -/
theorem submit_on_full_queue_rejected (maxsize : Nat) (queue : List Job) (job : Job)
    (hpos : 0 < maxsize) (hfull : maxsize ≤ queue.length) :
    enqueue_job maxsize queue job = (.queueFull, queue) := by
  unfold enqueue_job
  rw [if_pos ⟨hpos, hfull⟩]

/-- Witness for C7 at capacity 1 with one queued job. -/
theorem submit_on_full_queue_rejected_witness :
    enqueue_job 1 [⟨7, "youtube-a".toList⟩] ⟨8, "youtube-b".toList⟩ =
      (.queueFull, [⟨7, "youtube-a".toList⟩]) :=
  submit_on_full_queue_rejected 1 [⟨7, "youtube-a".toList⟩] ⟨8, "youtube-b".toList⟩
    (by decide) (by decide)

/-! ## bot.py: worker loop (`_queue_worker`) -/

/-- A dequeued queue item (the job dict): `chat_id` as stamped by
`_enqueue_job` (absent/zero models the falsy `item.get("chat_id")` path) and
the `type` field. -/
structure QItem where
  chat_id : Option Int
  jobType : List Char
deriving DecidableEq, Repr

/-- The external effects one worker iteration may invoke:
`_process_youtube_item` / `_process_text_item` (network-bound job pipelines;
an `.error` models a Python exception escaping them) and
`app.bot.send_message` (which may itself raise). -/
structure WorkerEnv where
  processYoutube : QItem → Except (List Char) Unit
  processText : QItem → Except (List Char) Unit
  sendMessage : Int → List Char → Except (List Char) Unit

/-- What one iteration of `_queue_worker`'s body did with its item.  Every
constructor is a normal return: the iteration never propagates an exception. -/
inductive IterOutcome where
  | completed
  | unknownTypeReported
  | unknownTypeReportFailed
  | unknownTypeNoChat
  | errorReported (chat_id : Int)
  | errorReportFailed (chat_id : Int)
  | errorNoChat
deriving DecidableEq, Repr

/-- One iteration of the `while True` body of `bot._queue_worker` after
`queue.get()`: extract `chat_id` (falling back to 0), dispatch on the `type`
field inside the `try`, and on any error from the processors catch it, report
to the chat when a chat id is known (that send is itself guarded), and return
so the loop continues.  The unknown-type reply sits in its own inner
`try`/`except`. -/
def worker_iteration (env : WorkerEnv) (item : QItem) : IterOutcome :=
  let chat_id : Int :=
    match item.chat_id with
    | some v => v
    | none => 0
  if item.jobType = "youtube".toList ∨ item.jobType = "text".toList then
    match (if item.jobType = "youtube".toList then env.processYoutube item
      else env.processText item) with
    | .ok _ => .completed
    | .error _ =>
      if chat_id ≠ 0 then
        match env.sendMessage chat_id "something went wrong, Marina needs to watch logs".toList with
        | .ok _ => .errorReported chat_id
        | .error _ => .errorReportFailed chat_id
      else .errorNoChat
  else
    if chat_id ≠ 0 then
      match env.sendMessage chat_id "Unknown job type".toList with
      | .ok _ => .unknownTypeReported
      | .error _ => .unknownTypeReportFailed
    else .unknownTypeNoChat

/-- `bot._queue_worker` over the finite trace of items dequeued before
cancellation: each item is handled by one total iteration (the catch-all
`except` turns every job failure into a report instead of ending the loop). -/
def queue_worker (env : WorkerEnv) (items : List QItem) : List IterOutcome :=
  items.map (worker_iteration env)

/-- Claim C9 (confirmed): if processing a dequeued youtube job raises, the
worker catches the error (reporting it when a chat id is known, with the
report attempt itself guarded) and still processes every queued item before
and after the failing one — a failing job never halts subsequent processing. -/
theorem worker_continues_after_job_error (env : WorkerEnv) (pre post : List QItem)
    (item : QItem) (e : List Char) (hty : item.jobType = "youtube".toList)
    (herr : env.processYoutube item = .error e) :
    queue_worker env (pre ++ item :: post) =
      queue_worker env pre ++ worker_iteration env item :: queue_worker env post ∧
    (worker_iteration env item = .errorNoChat ∨
      ∃ cid, worker_iteration env item = .errorReported cid ∨
        worker_iteration env item = .errorReportFailed cid) ∧
    (queue_worker env post).length = post.length := by
  refine ⟨?_, ?_, ?_⟩
  · unfold queue_worker
    rw [List.map_append, List.map_cons]
  · unfold worker_iteration
    rw [if_pos (Or.inl hty), if_pos hty, herr]
    by_cases h0 : (match item.chat_id with | some v => v | none => 0) ≠ 0
    · rw [if_pos h0]
      cases hs : env.sendMessage (match item.chat_id with | some v => v | none => 0)
          "something went wrong, Marina needs to watch logs".toList with
      | ok u => exact Or.inr ⟨_, Or.inl rfl⟩
      | error f => exact Or.inr ⟨_, Or.inr rfl⟩
    · rw [if_neg h0]
      exact Or.inl rfl
  · unfold queue_worker
    rw [List.length_map]

/-- A concrete worker environment whose youtube processor always raises. -/
def envBoom : WorkerEnv :=
  ⟨fun _ => .error "boom".toList, fun _ => .ok (), fun _ _ => .ok ()⟩

/-- Witness for C9: with a youtube job from chat 5 whose processing raises, the
error is reported and the following text job is still processed. -/
theorem worker_continues_after_job_error_witness :
    queue_worker envBoom ([] ++ ⟨some 5, "youtube".toList⟩ :: [⟨some 6, "text".toList⟩]) =
      queue_worker envBoom [] ++ worker_iteration envBoom ⟨some 5, "youtube".toList⟩ ::
        queue_worker envBoom [⟨some 6, "text".toList⟩] ∧
    (worker_iteration envBoom ⟨some 5, "youtube".toList⟩ = .errorNoChat ∨
      ∃ cid, worker_iteration envBoom ⟨some 5, "youtube".toList⟩ = .errorReported cid ∨
        worker_iteration envBoom ⟨some 5, "youtube".toList⟩ = .errorReportFailed cid) ∧
    (queue_worker envBoom [⟨some 6, "text".toList⟩]).length = 1 :=
  worker_continues_after_job_error envBoom [] [⟨some 6, "text".toList⟩]
    ⟨some 5, "youtube".toList⟩ "boom".toList rfl rfl

/-! ## transcript_handler.py: cleaning, chunking and the chunked pipeline -/

deriving instance DecidableEq for Except

/-- Regex `\w` (ASCII range): letters, digits, underscore. -/
def isWordChar (c : Char) : Bool :=
  c.isAlphanum || c = '_'

/-- A `\b` boundary holds next to a digit iff the adjacent character (if any)
is not a word character. -/
def boundaryOk (prev : Option Char) : Bool :=
  match prev with
  | none => true
  | some c => !(isWordChar c)

/-- The boundary after a match: the next character (if any) is not a word
character. -/
def afterOk (l : List Char) : Bool :=
  match l with
  | [] => true
  | c :: _ => !(isWordChar c)

/-- Length of the match of `\b\d{1,2}:\d{2}\b` at the head of `l` (0 when no
match): the greedy two-digit attempt first, then the backtracked one-digit
alternative. -/
def tcMatchLen (prev : Option Char) (l : List Char) : Nat :=
  if boundaryOk prev = false then 0
  else
    match l with
    | d1 :: d2 :: c :: d3 :: d4 :: rest =>
      if d1.isDigit && d2.isDigit && (c = ':') && d3.isDigit && d4.isDigit && afterOk rest then 5
      else if d1.isDigit && (d2 = ':') && c.isDigit && d3.isDigit && afterOk (d4 :: rest) then 4
      else 0
    | d1 :: c :: d3 :: d4 :: rest =>
      if d1.isDigit && (c = ':') && d3.isDigit && d4.isDigit && afterOk rest then 4 else 0
    | _ => 0

/-- `re.sub(r"\b\d{1,2}:\d{2}\b", "", text)`: scan left to right over the
original characters, deleting non-overlapping timecode matches; `prev` is the
character preceding the current position in the original string (matching
continues after the deleted text, so `prev` becomes the match's last digit). -/
def scanTimecodes (prev : Option Char) : List Char → List Char
  | [] => []
  | a :: b :: c :: d :: e :: rest =>
    if tcMatchLen prev (a :: b :: c :: d :: e :: rest) = 5 then
      scanTimecodes (some e) rest
    else if tcMatchLen prev (a :: b :: c :: d :: e :: rest) = 4 then
      scanTimecodes (some d) (e :: rest)
    else a :: scanTimecodes (some a) (b :: c :: d :: e :: rest)
  | a :: b :: c :: d :: [] =>
    if tcMatchLen prev (a :: b :: c :: d :: []) = 4 then scanTimecodes (some d) []
    else a :: scanTimecodes (some a) (b :: c :: d :: [])
  | a :: rest => a :: scanTimecodes (some a) rest

/-- `re.sub(r"\r?\n|\r", " ", text)`: each `\r\n`, `\n` or lone `\r` becomes a
single space. -/
def replaceLinebreaks : List Char → List Char
  | [] => []
  | '\r' :: '\n' :: rest => ' ' :: replaceLinebreaks rest
  | '\r' :: rest => ' ' :: replaceLinebreaks rest
  | '\n' :: rest => ' ' :: replaceLinebreaks rest
  | c :: rest => c :: replaceLinebreaks rest

/-- Worker for `collapseSpaces`; the flag records whether the previous
character belonged to a whitespace run whose single space was already
emitted. -/
def collapseSpacesGo : Bool → List Char → List Char
  | _, [] => []
  | inRun, c :: rest =>
    if isSpace c then
      if inRun then collapseSpacesGo true rest
      else ' ' :: collapseSpacesGo true rest
    else c :: collapseSpacesGo false rest

/-- `re.sub(r"\s+", " ", text)`: collapse each maximal whitespace run to one
space. -/
def collapseSpaces (l : List Char) : List Char :=
  collapseSpacesGo false l

/-- `transcript_handler.remove_timecodes`: strip `h:mm`/`hh:mm` timecodes,
replace linebreaks by spaces, collapse whitespace, strip the ends. -/
def remove_timecodes (text : List Char) : List Char :=
  pyStrip (collapseSpaces (replaceLinebreaks (scanTimecodes none text)))

example : remove_timecodes "hello  world\n2:30 ok".toList = "hello world ok".toList := by decide
example : remove_timecodes "ab 12:34, cd".toList = "ab , cd".toList := by decide
example : remove_timecodes "no 123:45 match".toList = "no 123:45 match".toList := by decide
example : remove_timecodes " x1:23 stays".toList = "x1:23 stays".toList := by decide

/-- Errors raised by the pipeline (`ValueError` messages in the source, plus
the `chunk_size` precondition). -/
inductive PipelineError where
  | invalidChunkSize
  | emptyTranscript
  | emptyReadabilityResult
  | emptyTranslationResult
  | emptyStructureResult
  | emptyReadableTranscript
deriving DecidableEq, Repr

/-- `transcript_handler.split_into_chunks`: raises for `chunk_size <= 0`
(only 0 is representable for `Nat`), else the fixed-offset slices
`[text[i : i + chunk_size] for i in range(0, len(text), chunk_size)]`. -/
def split_into_chunks (text : List Char) (chunk_size : Nat) :
    Except PipelineError (List (List Char)) :=
  if chunk_size = 0 then .error .invalidChunkSize
  else .ok ((List.range ((text.length + chunk_size - 1) / chunk_size)).map
    fun i => (text.drop (i * chunk_size)).take chunk_size)

example : split_into_chunks "abcde".toList 2 = .ok ["ab".toList, "cd".toList, "e".toList] := by
  decide
example : split_into_chunks "".toList 2 = .ok [] := by decide
example : split_into_chunks "abcde".toList 0 = .error .invalidChunkSize := by decide

/-- The external calls of the pipeline.  `readability`, `translation` and
`structureMd` map a stage's input text to the already-stripped chat-completion
output of `_chat` (prompt templating, and the language name interpolated into
the prompt, do not affect the handler's control flow, so they are folded into
the oracle).  `detect` is `langdetect.detect`, which may raise (`.error`). -/
structure Oracle where
  readability : List Char → List Char
  translation : List Char → List Char
  structureMd : List Char → List Char
  detect : List Char → Except Unit (List Char)

/-- `transcript_handler.detect_language_name`: strip, sample at most 300
characters, fall back to `"English"` on an empty sample or a raising `detect`,
and map the detected code through `{"en", "de", "ru"}` with default
`"English"`. -/
def detect_language_name (d : List Char → Except Unit (List Char)) (text : List Char) :
    List Char :=
  let sample := (pyStrip text).take 300
  if sample = [] then "English".toList
  else
    match d sample with
    | .error _ => "English".toList
    | .ok code =>
      if code = "en".toList then "English".toList
      else if code = "de".toList then "German".toList
      else if code = "ru".toList then "Russian".toList
      else "English".toList

/-- `transcript_handler.improve_readability`: empty chat output is a hard
error, otherwise split the corrected chunk with `find_tail`. -/
def improve_readability (o : Oracle) (text : List Char) : Except PipelineError TailResult :=
  let result := o.readability text
  if result = [] then .error .emptyReadabilityResult
  else .ok (find_tail result)

/-- `transcript_handler.translate_to_russian`: empty chat output is a hard
error. -/
def translate_to_russian (o : Oracle) (text : List Char) : Except PipelineError (List Char) :=
  let result := o.translation text
  if result = [] then .error .emptyTranslationResult
  else .ok result

/-- `transcript_handler.structure_markdown`: empty chat output is a hard
error. -/
def structure_markdown (o : Oracle) (text : List Char) : Except PipelineError (List Char) :=
  let result := o.structureMd text
  if result = [] then .error .emptyStructureResult
  else .ok result

/-- `transcript_handler.HandlerResult`. -/
structure HandlerResult where
  original_transcript : List Char
  readable_transcript : List Char
  translation_ru : Option (List Char)
  structured_markdown : List Char
  structured_translation_markdown : Option (List Char)
  detected_language : List Char
deriving DecidableEq, Repr

/-- The `for idx, chunk in enumerate(chunks)` loop of `handle_transcript`:
each chunk is corrected with the carried tail prepended; the completed part is
appended and the new tail carried.  Any stage error aborts the job. -/
def readability_loop (o : Oracle) :
    List (List Char) → List (List Char) → List Char →
      Except PipelineError (List (List Char) × List Char)
  | [], parts, tail => .ok (parts, tail)
  | chunk :: rest, parts, tail =>
    match improve_readability o (tail ++ chunk) with
    | .error e => .error e
    | .ok tr => readability_loop o rest (parts ++ [tr.complete_text]) tr.tail

/-- The local `readable_parts` value of `handle_transcript` after the loop:
the leftover tail is appended as a final segment when non-empty. -/
def readable_parts_of (pt : List (List Char) × List Char) : List (List Char) :=
  if pt.2 ≠ [] then pt.1 ++ [pt.2] else pt.1

/-- The local `readable_transcript` value of `handle_transcript`:
`"\n\n".join(part for part in readable_parts if part.strip()).strip()`. -/
def readable_transcript_of (pt : List (List Char) × List Char) : List Char :=
  pyStrip (List.intercalate "\n\n".toList
    ((readable_parts_of pt).filter (fun p => !(pyStrip p).isEmpty)))

/-- The local `text_for_structuring` value of `handle_transcript`:
`translation_ru if translation_ru else readable_transcript` (Python
truthiness: an empty translation would also fall back). -/
def text_for_structuring_of (translation_ru : Option (List Char))
    (readable_transcript : List Char) : List Char :=
  match translation_ru with
  | some tr => if tr = [] then readable_transcript else tr
  | none => readable_transcript

/-- `transcript_handler.handle_transcript`: clean, chunk, run the tail-carry
readability loop, append a leftover tail, join the non-blank parts with blank
lines, detect the language, translate unless Russian, and structure the
translated (else readable) text. -/
def handle_transcript (o : Oracle) (transcript : List Char) (chunk_size : Nat) :
    Except PipelineError HandlerResult :=
  match split_into_chunks (remove_timecodes transcript) chunk_size with
  | .error e => .error e
  | .ok chunks =>
    if chunks = [] then .error .emptyTranscript
    else
      match readability_loop o chunks [] [] with
      | .error e => .error e
      | .ok pt =>
        if readable_transcript_of pt = [] then .error .emptyReadableTranscript
        else
          match (if detect_language_name o.detect (readable_transcript_of pt) ≠ "Russian".toList
              then Except.map some (translate_to_russian o (readable_transcript_of pt))
              else .ok none) with
          | .error e => .error e
          | .ok translation_ru =>
            match structure_markdown o
                (text_for_structuring_of translation_ru (readable_transcript_of pt)) with
            | .error e => .error e
            | .ok structured_markdown =>
              .ok ⟨transcript, readable_transcript_of pt, translation_ru, structured_markdown,
                none, detect_language_name o.detect (readable_transcript_of pt)⟩

/-- A concrete oracle for sanity checks: readability output `"A. B."`,
translation `"X."`, structuring `"## T"`, detection `"en"`. -/
def oTest : Oracle :=
  ⟨fun _ => "A. B.".toList, fun _ => "X.".toList, fun _ => "## T".toList,
    fun _ => .ok "en".toList⟩

example :
    handle_transcript oTest "hello".toList 100 =
      .ok ⟨"hello".toList, "A.\n\nB.".toList, some "X.".toList, "## T".toList,
        none, "English".toList⟩ := by decide

/-- Claim C8 (confirmed): language detection is total (never raises past its
boundary — the model returns a plain value), the result depends only on
`detect`'s behaviour on samples of at most 300 characters, and it falls back
to `"English"` on blank input or when `detect` raises. -/
theorem detect_language_never_raises_and_falls_back
    (d d' : List Char → Except Unit (List Char)) (text : List Char) :
    ((∀ s, s.length ≤ 300 → d s = d' s) →
      detect_language_name d text = detect_language_name d' text) ∧
    (pyStrip text = [] → detect_language_name d text = "English".toList) ∧
    (∀ e, d ((pyStrip text).take 300) = .error e →
      detect_language_name d text = "English".toList) := by
  refine ⟨?_, ?_, ?_⟩
  · intro hagree
    simp only [detect_language_name]
    rw [hagree _ (List.length_take_le _ _)]
  · intro h
    simp [detect_language_name, h]
  · intro e he
    by_cases hs : (pyStrip text).take 300 = []
    · simp [detect_language_name, hs]
    · simp [detect_language_name, hs, he]

/-- A detector that answers `"ru"` only for samples within the 300-character
cap. -/
def dShort : List Char → Except Unit (List Char) :=
  fun s => if s.length ≤ 300 then .ok "ru".toList else .ok "en".toList

/-- A detector that always answers `"ru"`. -/
def dAll : List Char → Except Unit (List Char) :=
  fun _ => .ok "ru".toList

/-- A detector that always raises. -/
def dErr : List Char → Except Unit (List Char) :=
  fun _ => .error ()

/-- Witness for C8: the sampling bound, the blank-input fallback and the
raising-detector fallback at concrete inputs. -/
theorem detect_language_never_raises_and_falls_back_witness :
    detect_language_name dShort "hi".toList = detect_language_name dAll "hi".toList ∧
    detect_language_name dErr "  ".toList = "English".toList ∧
    detect_language_name dErr "hi".toList = "English".toList :=
  ⟨(detect_language_never_raises_and_falls_back dShort dAll "hi".toList).1
      (fun s hs => by simp [dShort, dAll, hs]),
    (detect_language_never_raises_and_falls_back dErr dErr "  ".toList).2.1 (by decide),
    (detect_language_never_raises_and_falls_back dErr dErr "hi".toList).2.2 () rfl⟩


set_option maxHeartbeats 1000000 in
theorem handle_transcript_ok_spec (o : Oracle) (t : List Char) (cs : Nat)
    (r : HandlerResult) (h : handle_transcript o t cs = .ok r) :
    ∃ chunks pt,
      split_into_chunks (remove_timecodes t) cs = .ok chunks ∧ chunks ≠ [] ∧
      readability_loop o chunks [] [] = .ok pt ∧
      r.readable_transcript = readable_transcript_of pt ∧
      r.detected_language = detect_language_name o.detect r.readable_transcript ∧
      ((r.detected_language = "Russian".toList ∧ r.translation_ru = none) ∨
        (r.detected_language ≠ "Russian".toList ∧
          ∃ tr, r.translation_ru = some tr ∧
            translate_to_russian o r.readable_transcript = .ok tr)) ∧
      (∃ tf, structure_markdown o tf = .ok r.structured_markdown) := by
  unfold handle_transcript at h
  split at h
  · simp at h
  · rename_i chunks heqc
    split at h
    · simp at h
    · rename_i hchunks
      split at h
      · simp at h
      · rename_i pt heqloop
        split at h
        · simp at h
        · rename_i hreadable
          split at h
          · simp at h
          · rename_i translation_ru heqtr
            split at h
            · simp at h
            · rename_i sm heqsm
              rw [Except.ok.injEq] at h
              subst h
              refine ⟨chunks, pt, heqc, hchunks, heqloop, rfl, rfl, ?_, ⟨_, heqsm⟩⟩
              split at heqtr
              · rename_i hdet
                cases htr : translate_to_russian o (readable_transcript_of pt) with
                | error e =>
                  rw [htr] at heqtr
                  simp [Except.map] at heqtr
                | ok tr =>
                  rw [htr] at heqtr
                  simp only [Except.map, Except.ok.injEq] at heqtr
                  refine Or.inr ⟨hdet, tr, ?_, ?_⟩
                  · exact heqtr.symm
                  · rfl
              · rename_i hdet
                rw [Except.ok.injEq] at heqtr
                rw [not_not] at hdet
                dsimp only
                exact Or.inl ⟨hdet, heqtr.symm⟩

/-- Claim C6 (confirmed): a transform stage returning an empty result makes
the whole job fail.  If the readability transform always returns empty the
pipeline errors; if the structuring transform always returns empty the
pipeline errors; and with an empty-returning translation transform the
pipeline can only succeed on the no-translation (Russian) path, so the stage
is never silently skipped with partial output. -/
theorem empty_stage_result_fails_pipeline (o : Oracle) (t : List Char) (cs : Nat) :
    ((∀ x, o.readability x = []) → ∃ e, handle_transcript o t cs = .error e) ∧
    ((∀ x, o.structureMd x = []) → ∃ e, handle_transcript o t cs = .error e) ∧
    ((∀ x, o.translation x = []) → ∀ r, handle_transcript o t cs = .ok r →
      r.translation_ru = none) := by
  refine ⟨?_, ?_, ?_⟩
  · intro hR
    cases hh : handle_transcript o t cs with
    | error e => exact ⟨e, rfl⟩
    | ok r =>
      exfalso
      obtain ⟨chunks, pt, hsc, hne, hloop, _⟩ := handle_transcript_ok_spec o t cs r hh
      obtain ⟨c, rest, rfl⟩ := List.exists_cons_of_ne_nil hne
      simp only [readability_loop] at hloop
      rw [show improve_readability o ([] ++ c) = Except.error .emptyReadabilityResult from by
        simp [improve_readability, hR]] at hloop
      simp at hloop
  · intro hS
    cases hh : handle_transcript o t cs with
    | error e => exact ⟨e, rfl⟩
    | ok r =>
      exfalso
      obtain ⟨chunks, pt, _, _, _, _, _, _, tf, hsm⟩ := handle_transcript_ok_spec o t cs r hh
      simp [structure_markdown, hS] at hsm
  · intro hT r hh
    obtain ⟨chunks, pt, _, _, _, _, _, hdisj, _⟩ := handle_transcript_ok_spec o t cs r hh
    rcases hdisj with ⟨_, hnone⟩ | ⟨_, tr, _, htrans⟩
    · exact hnone
    · exfalso
      simp [translate_to_russian, hT] at htrans

/-- Oracle whose readability transform always returns empty output. -/
def oEmptyRead : Oracle :=
  ⟨fun _ => [], fun _ => "X.".toList, fun _ => "## T".toList, fun _ => .ok "en".toList⟩

/-- Oracle whose structuring transform always returns empty output. -/
def oEmptyStruct : Oracle :=
  ⟨fun _ => "A. B.".toList, fun _ => "X.".toList, fun _ => [], fun _ => .ok "en".toList⟩

/-- Oracle whose translation transform always returns empty output, with the
detector reporting Russian (so translation is skipped). -/
def oEmptyTransRu : Oracle :=
  ⟨fun _ => "A. B.".toList, fun _ => [], fun _ => "## T".toList, fun _ => .ok "ru".toList⟩

/-- Witness for C6 at concrete oracles and inputs. -/
theorem empty_stage_result_fails_pipeline_witness :
    (∃ e, handle_transcript oEmptyRead "hi".toList 10 = .error e) ∧
    (∃ e, handle_transcript oEmptyStruct "hi".toList 10 = .error e) ∧
    (⟨"hi".toList, "A.\n\nB.".toList, none, "## T".toList, none,
      "Russian".toList⟩ : HandlerResult).translation_ru = none :=
  ⟨(empty_stage_result_fails_pipeline oEmptyRead "hi".toList 10).1 (fun x => rfl),
    (empty_stage_result_fails_pipeline oEmptyStruct "hi".toList 10).2.1 (fun x => rfl),
    (empty_stage_result_fails_pipeline oEmptyTransRu "hi".toList 10).2.2 (fun x => rfl)
      ⟨"hi".toList, "A.\n\nB.".toList, none, "## T".toList, none, "Russian".toList⟩
      (by decide)⟩

/-- Claim C10 (confirmed): `detect_language_name` only ever returns
`"English"`, `"German"` or `"Russian"`; any detected code other than
`"en"`/`"de"`/`"ru"` maps to `"English"`; and a successful job whose detected
language is not `"Russian"` always carries a translation (the translation
stage ran). -/
theorem detect_language_range_and_translation_gate :
    (∀ (d : List Char → Except Unit (List Char)) (text : List Char),
      (detect_language_name d text = "English".toList ∨
        detect_language_name d text = "German".toList ∨
        detect_language_name d text = "Russian".toList) ∧
      (∀ code, d ((pyStrip text).take 300) = .ok code → code ≠ "en".toList →
        code ≠ "de".toList → code ≠ "ru".toList →
        detect_language_name d text = "English".toList)) ∧
    (∀ (o : Oracle) (t : List Char) (cs : Nat) (r : HandlerResult),
      handle_transcript o t cs = .ok r → r.detected_language ≠ "Russian".toList →
      r.translation_ru ≠ none) := by
  constructor
  · intro d text
    constructor
    · simp only [detect_language_name]
      split
      · exact Or.inl rfl
      · split
        · exact Or.inl rfl
        · split_ifs
          · exact Or.inl rfl
          · exact Or.inr (Or.inl rfl)
          · exact Or.inr (Or.inr rfl)
          · exact Or.inl rfl
    · intro code hcode h1 h2 h3
      have h1' : (code = ['e', 'n']) = False := eq_false h1
      have h2' : (code = ['d', 'e']) = False := eq_false h2
      have h3' : (code = ['r', 'u']) = False := eq_false h3
      by_cases hs : (pyStrip text).take 300 = []
      · simp [detect_language_name, hs]
      · simp [detect_language_name, hs, hcode, h1', h2', h3']
  · intro o t cs r hh hne
    obtain ⟨chunks, pt, _, _, _, _, _, hdisj, _⟩ := handle_transcript_ok_spec o t cs r hh
    rcases hdisj with ⟨hru, _⟩ | ⟨_, tr, htr, _⟩
    · exact absurd hru hne
    · rw [htr]
      simp

/-- A detector that always reports the unmapped code `"fr"`. -/
def dFr : List Char → Except Unit (List Char) :=
  fun _ => .ok "fr".toList

/-- Witness for C10: the unmapped code `"fr"` is reported as English, and a
successful English-detected run carries a translation. -/
theorem detect_language_range_and_translation_gate_witness :
    detect_language_name dFr "bonjour".toList = "English".toList ∧
    (⟨"hello".toList, "A.\n\nB.".toList, some "X.".toList, "## T".toList, none,
      "English".toList⟩ : HandlerResult).translation_ru ≠ none :=
  ⟨(detect_language_range_and_translation_gate.1 dFr "bonjour".toList).2 "fr".toList
      rfl (by decide) (by decide) (by decide),
    detect_language_range_and_translation_gate.2 oTest "hello".toList 100
      ⟨"hello".toList, "A.\n\nB.".toList, some "X.".toList, "## T".toList, none,
        "English".toList⟩ (by decide) (by decide)⟩

/-! ## Characterisation of `rfind` and `find_tail` (claims C3 and C4) -/

theorem isPrefixOf_decomp : ∀ (p l : List Char), p.isPrefixOf l = true → ∃ t, l = p ++ t := by
  intro p
  induction p with
  | nil => exact fun l _ => ⟨l, rfl⟩
  | cons a as ih =>
    intro l h
    cases l with
    | nil => simp [List.isPrefixOf] at h
    | cons b bs =>
      simp only [List.isPrefixOf, Bool.and_eq_true, beq_iff_eq] at h
      obtain ⟨hab, hrest⟩ := h
      obtain ⟨t, ht⟩ := ih bs hrest
      exact ⟨t, by simp [hab, ht]⟩

theorem rfindFrom_some (pat s : List Char) :
    ∀ k i, rfindFrom pat s k = some i →
      i ≤ k ∧ matchAt pat s i = true ∧ ∀ j, i < j → j ≤ k → matchAt pat s j = false := by
  intro k
  induction k with
  | zero =>
    intro i h
    simp only [rfindFrom] at h
    split at h
    · rename_i hm
      rw [Option.some.injEq] at h
      subst h
      exact ⟨Nat.le_refl 0, hm, fun j hj1 hj2 => by omega⟩
    · exact absurd h (by simp)
  | succ k ih =>
    intro i h
    simp only [rfindFrom] at h
    split at h
    · rename_i hm
      rw [Option.some.injEq] at h
      subst h
      exact ⟨Nat.le_refl _, hm, fun j hj1 hj2 => by omega⟩
    · rename_i hm
      obtain ⟨h1, h2, h3⟩ := ih i h
      refine ⟨Nat.le_succ_of_le h1, h2, fun j hj1 hj2 => ?_⟩
      by_cases hjk : j ≤ k
      · exact h3 j hj1 hjk
      · have hj : j = k + 1 := by omega
        subst hj
        exact Bool.eq_false_iff.mpr hm

theorem rfindFrom_none (pat s : List Char) :
    ∀ k, rfindFrom pat s k = none → ∀ j, j ≤ k → matchAt pat s j = false := by
  intro k
  induction k with
  | zero =>
    intro h j hj
    simp only [rfindFrom] at h
    split at h
    · exact absurd h (by simp)
    · rename_i hm
      have hj0 : j = 0 := by omega
      subst hj0
      exact Bool.eq_false_iff.mpr hm
  | succ k ih =>
    intro h j hj
    simp only [rfindFrom] at h
    split at h
    · exact absurd h (by simp)
    · rename_i hm
      by_cases hjk : j ≤ k
      · exact ih h j hjk
      · have hje : j = k + 1 := by omega
        subst hje
        exact Bool.eq_false_iff.mpr hm

theorem rfind_cases (pat s : List Char) (e : Nat) :
    (rfind pat s e = -1 ∧ ∀ j, j + pat.length ≤ e → matchAt pat s j = false) ∨
    (∃ i : Nat, rfind pat s e = (i : Int) ∧ i + pat.length ≤ e ∧ matchAt pat s i = true ∧
      ∀ j, i < j → j + pat.length ≤ e → matchAt pat s j = false) := by
  unfold rfind
  by_cases hle : pat.length ≤ e
  · rw [if_pos hle]
    cases hrf : rfindFrom pat s (e - pat.length) with
    | none =>
      left
      exact ⟨rfl, fun j hj => rfindFrom_none pat s _ hrf j (by omega)⟩
    | some i =>
      right
      obtain ⟨h1, h2, h3⟩ := rfindFrom_some pat s _ i hrf
      exact ⟨i, rfl, by omega, h2, fun j hj1 hj2 => h3 j hj1 (by omega)⟩
  · rw [if_neg hle]
    left
    exact ⟨rfl, fun j hj => absurd (by omega : pat.length ≤ e) hle⟩

/-- A sentence terminator (`". "`, `"? "` or `"! "`) occurs in `s` at index
`i`. -/
def termAt (s : List Char) (i : Nat) : Bool :=
  matchAt ['.', ' '] s i || matchAt ['?', ' '] s i || matchAt ['!', ' '] s i

theorem find_tail_break (text : List Char) (hne : text ≠ []) :
    ((∀ i, i + 2 ≤ text.length - 1 → termAt text i = false) ∧
      find_tail text = ⟨pyStrip text, []⟩) ∨
    (∃ b, termAt text b = true ∧ b + 2 ≤ text.length - 1 ∧
      (∀ j, b < j → j + 2 ≤ text.length - 1 → termAt text j = false) ∧
      find_tail text = ⟨pyStrip (text.take (b + 1)), pyStrip (text.drop (b + 2))⟩) := by
  have key : ∀ p : List Char, p.length = 2 →
      (rfind p text (text.length - 1) = -1 ∨
        ∃ i : Nat, rfind p text (text.length - 1) = (i : Int) ∧
          i + 2 ≤ text.length - 1 ∧ matchAt p text i = true) ∧
      (∀ j, j + 2 ≤ text.length - 1 → matchAt p text j = true →
        (j : Int) ≤ rfind p text (text.length - 1)) := by
    intro p hp
    rcases rfind_cases p text (text.length - 1) with ⟨ha, hn⟩ | ⟨i, ha, hb, hm, hx⟩
    · refine ⟨Or.inl ha, fun j hj hmj => ?_⟩
      rw [hp] at hn
      rw [hn j hj] at hmj
      exact absurd hmj (by simp)
    · rw [hp] at hb hx
      refine ⟨Or.inr ⟨i, ha, hb, hm⟩, fun j hj hmj => ?_⟩
      rw [ha]
      by_contra hlt
      push_neg at hlt
      have hij : i < j := by exact_mod_cast hlt
      rw [hx j hij hj] at hmj
      exact absurd hmj (by simp)
  obtain ⟨hc1, hu1⟩ := key ['.', ' '] rfl
  obtain ⟨hc2, hu2⟩ := key ['?', ' '] rfl
  obtain ⟨hc3, hu3⟩ := key ['!', ' '] rfl
  by_cases hall : ∀ i, i + 2 ≤ text.length - 1 → termAt text i = false
  · left
    refine ⟨hall, ?_⟩
    have z1 : rfind ['.', ' '] text (text.length - 1) = -1 := by
      rcases hc1 with h | ⟨i, ha, hb, hm⟩
      · exact h
      · have := hall i hb
        rw [termAt, hm] at this
        simp at this
    have z2 : rfind ['?', ' '] text (text.length - 1) = -1 := by
      rcases hc2 with h | ⟨i, ha, hb, hm⟩
      · exact h
      · have := hall i hb
        rw [termAt, hm] at this
        simp at this
    have z3 : rfind ['!', ' '] text (text.length - 1) = -1 := by
      rcases hc3 with h | ⟨i, ha, hb, hm⟩
      · exact h
      · have := hall i hb
        rw [termAt, hm] at this
        simp at this
    unfold find_tail
    rw [if_neg hne]
    dsimp only
    rw [z1, z2, z3]
    simp
  · right
    push_neg at hall
    obtain ⟨i0, hib, hit⟩ := hall
    have hit' : termAt text i0 = true := by
      cases h : termAt text i0
      · exact absurd h hit
      · rfl
    set m := max (rfind ['.', ' '] text (text.length - 1))
      (max (rfind ['?', ' '] text (text.length - 1))
        (rfind ['!', ' '] text (text.length - 1))) with hmdef
    have hub : ∀ j, j + 2 ≤ text.length - 1 → termAt text j = true → (j : Int) ≤ m := by
      intro j hj ht
      rw [termAt, Bool.or_eq_true, Bool.or_eq_true] at ht
      rw [hmdef]
      rcases ht with (h | h) | h
      · exact le_trans (hu1 j hj h) (le_max_left _ _)
      · exact le_trans (hu2 j hj h) (le_trans (le_max_left _ _) (le_max_right _ _))
      · exact le_trans (hu3 j hj h) (le_trans (le_max_right _ _) (le_max_right _ _))
    have hm0 : (0 : Int) ≤ m := le_trans (Int.natCast_nonneg i0) (hub i0 hib hit')
    have hone : m = rfind ['.', ' '] text (text.length - 1) ∨
        m = rfind ['?', ' '] text (text.length - 1) ∨
        m = rfind ['!', ' '] text (text.length - 1) := by
      rcases max_choice (rfind ['.', ' '] text (text.length - 1))
        (max (rfind ['?', ' '] text (text.length - 1))
          (rfind ['!', ' '] text (text.length - 1))) with h | h
      · exact Or.inl (by rw [hmdef, h])
      · rcases max_choice (rfind ['?', ' '] text (text.length - 1))
          (rfind ['!', ' '] text (text.length - 1)) with h2 | h2
        · exact Or.inr (Or.inl (by rw [hmdef, h, h2]))
        · exact Or.inr (Or.inr (by rw [hmdef, h, h2]))
    obtain ⟨b, hmb, hbb, hbm⟩ : ∃ b : Nat, m = (b : Int) ∧ b + 2 ≤ text.length - 1 ∧
        termAt text b = true := by
      rcases hone with h | h | h
      · rcases hc1 with hz | ⟨i, ha, hb', hm'⟩
        · rw [hz] at h
          omega
        · rw [ha] at h
          exact ⟨i, h, hb', by simp [termAt, hm']⟩
      · rcases hc2 with hz | ⟨i, ha, hb', hm'⟩
        · rw [hz] at h
          omega
        · rw [ha] at h
          exact ⟨i, h, hb', by simp [termAt, hm']⟩
      · rcases hc3 with hz | ⟨i, ha, hb', hm'⟩
        · rw [hz] at h
          omega
        · rw [ha] at h
          exact ⟨i, h, hb', by simp [termAt, hm']⟩
    refine ⟨b, hbm, hbb, ?_, ?_⟩
    · intro j hbj hj
      cases hjt : termAt text j
      · rfl
      · have hle := hub j hj hjt
        rw [hmb] at hle
        have : j ≤ b := by exact_mod_cast hle
        omega
    · unfold find_tail
      rw [if_neg hne]
      dsimp only
      rw [← hmdef, hmb]
      rw [if_neg (by omega)]
      rw [show ((b : Int)).toNat = b from Int.toNat_natCast b]

theorem term_decomp {c : Char} {s : List Char} {b : Nat}
    (h : matchAt [c, ' '] s b = true) :
    s = s.take (b + 1) ++ ' ' :: s.drop (b + 2) := by
  obtain ⟨t, ht⟩ := isPrefixOf_decomp _ _ h
  have h1 : s.drop (b + 1) = ' ' :: t := by
    rw [show s.drop (b + 1) = (s.drop b).drop 1 from (List.drop_drop 1 b s).symm, ht]
    rfl
  have h2 : s.drop (b + 2) = t := by
    rw [show s.drop (b + 2) = (s.drop b).drop 2 from (List.drop_drop 2 b s).symm, ht]
    rfl
  conv_lhs => rw [← List.take_append_drop (b + 1) s]
  rw [h1, h2]

/-- Claim C3 (counterexample): at the transform output `"a. b"`, `find_tail`
gives `complete_text = "a."` and `tail = "b"`; their concatenation `"a.b"`
does not restore `"a. b"` — the separator space is lost, so character-exact
reconstruction fails. -/
theorem find_tail_concat_loses_characters_cex :
    (find_tail "a. b".toList).complete_text ++ (find_tail "a. b".toList).tail ≠
      "a. b".toList := by
  decide

/-- Claim C3 (corrected): each transform output splits with no duplication,
exactly up to the dropped single separator space and the whitespace stripping
of both parts: either the tail is empty and `complete_text` is the stripped
input, or the input is `u ++ " " ++ w` with `complete_text = strip u` and
`tail = strip w`. -/
theorem find_tail_split_reconstruction (s : List Char) :
    ((find_tail s).tail = [] ∧ (find_tail s).complete_text = pyStrip s) ∨
    (∃ u w, s = u ++ ' ' :: w ∧ (find_tail s).complete_text = pyStrip u ∧
      (find_tail s).tail = pyStrip w) := by
  by_cases hne : s = []
  · subst hne
    exact Or.inl ⟨rfl, rfl⟩
  · rcases find_tail_break s hne with ⟨_, heq⟩ | ⟨b, hb1, _, _, heq⟩
    · left
      rw [heq]
      exact ⟨rfl, rfl⟩
    · right
      have hsplit : s = s.take (b + 1) ++ ' ' :: s.drop (b + 2) := by
        rw [termAt, Bool.or_eq_true, Bool.or_eq_true] at hb1
        rcases hb1 with (h | h) | h
        · exact term_decomp h
        · exact term_decomp h
        · exact term_decomp h
      exact ⟨s.take (b + 1), s.drop (b + 2), hsplit, by rw [heq], by rw [heq]⟩

/-- Reference model of claim C4's wording (not of the source): take the last
occurrence of a two-character terminator anywhere in the input (`rfind`
bounded at the full length), keep everything up to and including the
terminator as `complete_text` and everything after it as `tail`, with no
stripping; with no occurrence the entire input is `complete_text`. -/
def find_tail_claimed (text : List Char) : TailResult :=
  let sentence_break := max (rfind ['.', ' '] text text.length)
    (max (rfind ['?', ' '] text text.length) (rfind ['!', ' '] text text.length))
  if sentence_break = -1 then ⟨text, []⟩
  else ⟨text.take (sentence_break.toNat + 2), text.drop (sentence_break.toNat + 2)⟩

/-- Claim C4 (counterexample): on `"a. b. "` the last terminator occurrence is
the final `". "`, so the claim predicts `complete_text = "a. b. "` and an
empty tail; the source bounds `rfind` at `len - 1`, ignores that occurrence,
drops the separator space and strips, returning `("a.", "b.")`. -/
theorem find_tail_last_terminator_cex :
    find_tail "a. b. ".toList ≠ find_tail_claimed "a. b. ".toList ∧
    find_tail "a. b. ".toList = ⟨"a.".toList, "b.".toList⟩ ∧
    find_tail_claimed "a. b. ".toList = ⟨"a. b. ".toList, []⟩ := by
  decide

/-- Claim C4 (corrected): `find_tail` uses the last terminator occurrence that
ends strictly before the final character (`rfind` bound `len - 1`);
`complete_text` is everything up to and including the terminator's punctuation
mark (the following space is dropped) with surrounding whitespace stripped,
and `tail` is everything after the terminator, stripped; with no such
occurrence the whole input, stripped, becomes `complete_text` and the tail is
empty. -/
theorem find_tail_characterization (text : List Char) (hne : text ≠ []) :
    ((∀ i, i + 2 ≤ text.length - 1 → termAt text i = false) →
      find_tail text = ⟨pyStrip text, []⟩) ∧
    (∀ b, termAt text b = true → b + 2 ≤ text.length - 1 →
      (∀ j, b < j → j + 2 ≤ text.length - 1 → termAt text j = false) →
      find_tail text = ⟨pyStrip (text.take (b + 1)), pyStrip (text.drop (b + 2))⟩) := by
  constructor
  · intro hno
    rcases find_tail_break text hne with ⟨_, heq⟩ | ⟨b, hb1, hb2, _, _⟩
    · exact heq
    · rw [hno b hb2] at hb1
      exact absurd hb1 (by simp)
  · intro b hb1 hb2 hmax
    rcases find_tail_break text hne with ⟨hno, _⟩ | ⟨b', hb1', hb2', hmax', heq⟩
    · rw [hno b hb2] at hb1
      exact absurd hb1 (by simp)
    · have hbb : b = b' := by
        by_contra hne2
        rcases Nat.lt_or_ge b b' with hlt | hge
        · rw [hmax b' hlt hb2'] at hb1'
          exact absurd hb1' (by simp)
        · have hlt : b' < b := by omega
          rw [hmax' b hlt hb2] at hb1
          exact absurd hb1 (by simp)
      rw [hbb]
      exact heq

/-- Witness for the corrected C4 statement: `"x! y"` has its last in-range
terminator at index 1 and splits into `("x!", "y")`; `"abc"` has none and
becomes `("abc", "")`. -/
theorem find_tail_characterization_witness :
    find_tail "x! y".toList = ⟨"x!".toList, "y".toList⟩ ∧
    find_tail "abc".toList = ⟨"abc".toList, []⟩ := by
  constructor
  · have h := (find_tail_characterization "x! y".toList (by decide)).2 1 (by decide)
      (by decide) (fun j hj1 hj2 => by
        exfalso
        have hl : "x! y".toList.length = 4 := rfl
        rw [hl] at hj2
        omega)
    simpa using h
  · have h := (find_tail_characterization "abc".toList (by decide)).1 (fun i hi => by
      have hl : "abc".toList.length = 3 := rfl
      rw [hl] at hi
      have h0 : i = 0 := by omega
      subst h0
      decide)
    simpa using h
